import Mathlib

/-
Shallow embedding of the DCE-MRI fitting core, src/dce/dce_fit.py together
with the water-exchange decompositions of src/dce/r_to_s.py.

Modelling conventions:

* Machine floating-point numbers are modelled as exact rationals.  A value
  that is NaN or infinite (non-finite) is modelled as `none` in the type
  `Flt := Option ℚ`; finite values are `some q`.  The operations `fadd`,
  `fsub`, `fmul`, `fdiv` propagate non-finiteness the way IEEE arithmetic
  propagates NaN/Inf through the expressions occurring in this program:
  any operation with a non-finite operand yields a non-finite result, and a
  division by zero yields a non-finite result (Inf or NaN; numpy emits a
  warning but does not raise).

* 1-D numpy arrays are lists; elementwise (broadcast) numpy expressions are
  mapped samplewise over the lists, and a numpy reduction over compartments
  becomes a fold over the corresponding finite list.

* The scipy root finder (scipy.optimize.root with method hybr and the fixed
  option values of the source) and the scipy local minimizer
  (scipy.optimize.minimize with the keyword arguments fixed by each caller)
  are external code; they appear as explicit function parameters, named rf
  and mini.  A root-finding call that does not converge returns `none`:
  the source asserts res.success, so non-convergence raises and the whole
  enclosing conversion produces no value.

* The collaborator models (pharmacokinetic model, concentration-relaxation
  model, water-exchange model, signal model) are opaque strategy objects in
  the source; here they are structures of abstract functions.  Relaxation
  and signal models act samplewise, matching their elementwise numpy
  implementations.

* A Python function that can raise an exception is embedded with an
  `Option` result; `none` is an uncaught exception reaching the caller.
-/

/-- Floating-point values: `some q` is a finite value, `none` is NaN/Inf. -/
abbrev Flt : Type := Option ℚ

/-- Floating-point addition with non-finiteness propagation. -/
def fadd : Flt → Flt → Flt
  | some a, some b => some (a + b)
  | _, _ => none

/-- Floating-point subtraction with non-finiteness propagation. -/
def fsub : Flt → Flt → Flt
  | some a, some b => some (a - b)
  | _, _ => none

/-- Floating-point multiplication with non-finiteness propagation.
Note that multiplication by zero propagates too: 0 * NaN and 0 * Inf are
NaN. -/
def fmul : Flt → Flt → Flt
  | some a, some b => some (a * b)
  | _, _ => none

/-- Floating-point division: a zero or non-finite divisor, or a non-finite
dividend, gives a non-finite result (Inf or NaN). -/
def fdiv : Flt → Flt → Flt
  | some a, some b => if b = 0 then none else some (a / b)
  | _, _ => none

/-- Division of a floating value by a finite scalar (used where the source
divides an array by a plain float). -/
def fdivQ (a : Flt) (q : ℚ) : Flt :=
  match a with
  | some x => if q = 0 then none else some (x / q)
  | none => none

/-- np.sum over a list of floating values (empty sum is 0). -/
def fsum (l : List Flt) : Flt := l.foldr fadd (some 0)

/-- Elementwise combination of three equally long arrays. -/
def zipWith3 {α β γ δ : Type} (f : α → β → γ → δ) : List α → List β → List γ → List δ
  | a :: as, b :: bs, c :: cs => f a b c :: zipWith3 f as bs cs
  | _, _, _ => []

/-- A Python list comprehension whose body can raise: elements are produced
left to right and the first failure aborts the whole comprehension. -/
def optMap {α β : Type} (g : α → Option β) : List α → Option (List β)
  | [] => some []
  | a :: as =>
    match g a with
    | none => none
    | some b =>
      match optMap g as with
      | none => none
      | some bs => some (b :: bs)

/-- The Python float comparison a < b: every comparison involving NaN is
false. -/
def flt_lt : Flt → Flt → Bool
  | some a, some b => decide (a < b)
  | _, _ => false

/-- The Python float comparison a <= b: every comparison involving NaN is
false. -/
def flt_le : Flt → Flt → Bool
  | some a, some b => decide (a ≤ b)
  | _, _ => false

/-- Python min over a list of float costs (none for an empty list, where
Python raises ValueError).  Faithful to CPython: the running minimum
starts at the first element and a later element replaces it only when the
comparison x < current is true — so a NaN never replaces the current
value, and a NaN first element is never replaced. -/
def pymin : List Flt → Option Flt
  | [] => none
  | c :: cs => some (cs.foldl (fun cur x => if flt_lt x cur then x else cur) c)

/-- Python list.index: index of the first occurrence of a value.  CPython
compares by identity before equality; for the values pymin can return this
coincides with structural equality on Flt: a NaN minimum only arises when
the first cost is that very NaN (a NaN never replaces the running
minimum), and index then finds it by identity at position 0, which is
where the first structurally-NaN entry sits as well. -/
def idxOf : List Flt → Flt → ℕ
  | [], _ => 0
  | x :: xs, a => if x = a then 0 else idxOf xs a + 1

/-- np.mean of a 1-D array: NaN (with a warning, not an exception) on an
empty array. -/
def nmean (xs : List ℚ) : Flt :=
  if xs.length = 0 then none else some (xs.sum / (xs.length : ℚ))

/-- sig_to_enh, dce_fit.py lines 19-36: s_pre = np.mean(s[base_idx]);
enh = 100 * (s - s_pre) / s_pre.  Fancy indexing with an out-of-range
index raises IndexError (the `none` branch); everything else returns
normally, with non-finite entries where the arithmetic degenerates. -/
def sig_to_enh (s : List ℚ) (base_idx : List ℕ) : Option (List Flt) :=
  match optMap (fun i => s[i]?) base_idx with
  | none => none
  | some sel =>
    some (s.map (fun sj => fmul (some 100) (fdiv (fsub (some sj) (nmean sel)) (nmean sel))))

/-- The baseline reference s_pre computed by sig_to_enh: `none` when the
indexing itself raises, otherwise the (possibly non-finite) mean. -/
def baselineRef (s : List ℚ) (base_idx : List ℕ) : Option Flt :=
  Option.map nmean (optMap (fun i => s[i]?) base_idx)

theorem fadd_some_zero : ∀ a : Flt, fadd a (some 0) = a := by
  intro a
  cases a with
  | none => rfl
  | some x => simp [fadd]

theorem fsub_eq_some_zero {a b : Flt} (h : fsub a b = some 0) : a = b := by
  cases a with
  | none => cases b <;> simp [fsub] at h
  | some x =>
    cases b with
    | none => simp [fsub] at h
    | some y =>
      simp [fsub, sub_eq_zero] at h
      rw [h]

/-- Concentration-relaxation collaborator model (spec section 6): maps a
pre-contrast rate and a concentration to a post-contrast rate, samplewise. -/
structure CRModel where
  R1 : Flt → Flt → Flt
  R2 : Flt → Flt → Flt

/-- Signal collaborator model: R_to_s(s0, R1, R2, R2s, k), samplewise.
dce_fit.py also calls it with R2 and R2s left at their defaults, which the
existing signal models take to be 0. -/
structure SigModel where
  R_to_s : Flt → Flt → Flt → Flt → ℚ → Flt

/-- conc_to_enh, dce_fit.py lines 79-112, for a single sample (the source
is elementwise over the concentration array; the root-finding caller
applies it to a scalar). -/
def conc_to_enh_single (c : ℚ) (k R10 : ℚ) (crm : CRModel) (sm : SigModel) : Flt :=
  let R1 := crm.R1 (some R10) (some c)
  let R2 := crm.R2 (some 0) (some c)
  let s_pre := sm.R_to_s (some 1) (some R10) (some 0) (some 0) k
  let s_post := sm.R_to_s (some 1) R1 R2 R2 k
  fmul (some 100) (fdiv (fsub s_post s_pre) s_pre)

/-- conc_to_enh on a whole series. -/
def conc_to_enh (C_t : List ℚ) (k R10 : ℚ) (crm : CRModel) (sm : SigModel) : List Flt :=
  C_t.map (fun c => conc_to_enh_single c k R10 crm sm)

/-- enh_to_conc, dce_fit.py lines 39-76.  rf models scipy.optimize.root
(method hybr, maxfev 1000, xtol 1e-7) applied to the residual
e - conc_to_enh(c) with start 0, returning the root found (min(res.x) of a
length-1 solution array) or `none` on non-convergence; the source asserts
res.success, so a single failed sample aborts the whole conversion. -/
def enh_to_conc (rf : (ℚ → Flt) → ℚ → Option ℚ) (enh : List Flt) (k R10 : ℚ)
    (crm : CRModel) (sm : SigModel) : Option (List ℚ) :=
  optMap (fun e => rf (fun c => fsub e (conc_to_enh_single c k R10 crm sm)) 0) enh

/-- A per-compartment dictionary with the keys b (blood), e
(extravascular-extracellular), i (intracellular). -/
structure CompDict (α : Type) where
  b : α
  e : α
  i : α
deriving DecidableEq

/-- A pharmacokinetic parameter dictionary.  The core only ever looks up
the keys vp and ve (absence matters, hence Option); all remaining
model-specific parameters are opaque to the core and collected in rest. -/
structure PKPars where
  vp : Option ℚ
  ve : Option ℚ
  rest : List ℚ
deriving DecidableEq

/-- volume_fractions, dce_fit.py lines 290-306. -/
def volume_fractions (pk_pars : PKPars) (hct : ℚ) : CompDict ℚ :=
  let vb := match pk_pars.vp with
    | some vp => vp / (1 - hct)
    | none => 0
  match pk_pars.ve with
  | some ve => ⟨vb, ve, 1 - vb - ve⟩
  | none => ⟨vb, 1 - vb, 0⟩

/-- Pharmacokinetic collaborator model.  concV models pk_model.conc(*x)
(positional call on a parameter vector, used by conc_to_pkp); concP models
pk_model.conc(**pk_pars) (keyword call on a parameter dictionary, used by
pkp_to_enh).  Each returns (C_t, C_cp, C_e), finite arrays. -/
structure PKModel where
  typical_vals : List ℚ
  pkp_array : PKPars → List ℚ
  pkp_dict : List ℚ → PKPars
  concV : List ℚ → List ℚ × List ℚ × List ℚ
  concP : PKPars → List ℚ × List ℚ × List ℚ

/-- Water-exchange collaborator model, samplewise: from spin-population
fractions and per-compartment R1 values to a list of component R1 values
paired with component population weights. -/
structure WXModel where
  R1_components : CompDict ℚ → CompDict Flt → List Flt × List Flt

/-- The extravascular pre-contrast rate solved for in pkp_to_enh line 256:
(R10_tissue - p.b * R10_blood) / (1 - p.b); non-finite when p.b = 1. -/
def pkp_R10_extravasc (R10_tissue R10_blood pb : ℚ) : Flt :=
  fdivQ (some (R10_tissue - pb * R10_blood)) (1 - pb)

/-- The per-compartment concentration dictionary built in pkp_to_enh lines
264-268: blood plasma and extravascular concentrations are divided by
their volume fractions, and the intracellular compartment carries an
identically zero series of the same length as C_e (np.zeros(C_e.shape)).
The source also stores the unused entry C_t in the same dictionary. -/
def pkp_conc_c (pkm : PKModel) (pk_pars : PKPars) (v : CompDict ℚ) : CompDict (List Flt) :=
  { b := ((pkm.concP pk_pars).2.1).map (fun x => fdivQ (some x) v.b)
  , e := ((pkm.concP pk_pars).2.2).map (fun x => fdivQ (some x) v.e)
  , i := List.replicate ((pkm.concP pk_pars).2.2).length (some 0) }

/-- The per-compartment post-contrast R1 dictionary of pkp_to_enh lines
271-273: the relaxation model applied samplewise to each compartment. -/
def pkp_R1 (crm : CRModel) (R10 : CompDict Flt) (c : CompDict (List Flt)) :
    CompDict (List Flt) :=
  { b := c.b.map (crm.R1 R10.b)
  , e := c.e.map (crm.R1 R10.e)
  , i := c.i.map (crm.R1 R10.i) }

/-- Turn per-compartment series into a series of per-compartment samples
(the samplewise view of the elementwise numpy computation). -/
def transpose3 (R : CompDict (List Flt)) : List (CompDict Flt) :=
  zipWith3 (fun a b c => (⟨a, b, c⟩ : CompDict Flt)) R.b R.e R.i

/-- The population-weighted total signal over relaxation components,
pkp_to_enh lines 279-284 for one sample: sum of p_c * R_to_s(1, rate, k). -/
def compSignal (sm : SigModel) (k : ℚ) (comps : List Flt × List Flt) : Flt :=
  fsum (List.zipWith (fun pc rc => fmul pc (sm.R_to_s (some 1) rc (some 0) (some 0) k)) comps.2 comps.1)

/-- pkp_to_enh, dce_fit.py lines 249-287. -/
def pkp_to_enh (pk_pars : PKPars) (hct k R10_tissue R10_blood : ℚ) (pkm : PKModel)
    (crm : CRModel) (wxm : WXModel) (sm : SigModel) : List Flt :=
  let v := volume_fractions pk_pars hct
  let p := v
  let R10 : CompDict Flt :=
    ⟨some R10_blood, pkp_R10_extravasc R10_tissue R10_blood p.b,
     pkp_R10_extravasc R10_tissue R10_blood p.b⟩
  let s_pre := compSignal sm k (wxm.R1_components p R10)
  let c := pkp_conc_c pkm pk_pars v
  let R1 := pkp_R1 crm R10 c
  (transpose3 R1).map (fun R1t =>
    fmul (some 100) (fdiv (fsub (compSignal sm k (wxm.R1_components p R1t)) s_pre) s_pre))

/-- A pair of relaxation rates (r1, r2s) for one compartment or component,
as used throughout r_to_s.py. -/
structure RPair where
  r1 : Flt
  r2s : Flt
deriving DecidableEq

/-- r_compartments_to_components_fxl, r_to_s.py lines 23-33, samplewise:
in the fast-exchange limit all compartments merge into a single component
whose rates are the p-weighted averages, with population weight 1. -/
def r_compartments_to_components_fxl (r : CompDict RPair) (p : CompDict ℚ) :
    List RPair × List Flt :=
  ([⟨fsum [fmul (some p.b) r.b.r1, fmul (some p.e) r.e.r1, fmul (some p.i) r.i.r1],
     fsum [fmul (some p.b) r.b.r2s, fmul (some p.e) r.e.r2s, fmul (some p.i) r.i.r2s]⟩],
   [some 1])

/-- r_compartments_to_components_nxl, r_to_s.py lines 35-42, samplewise:
in the no-exchange limit each compartment keeps its own r1 as a separate
component with its own population weight; r2s is the p-weighted mean. -/
def r_compartments_to_components_nxl (r : CompDict RPair) (p : CompDict ℚ) :
    List RPair × List Flt :=
  let r2s_mean := fsum [fmul (some p.b) r.b.r2s, fmul (some p.e) r.e.r2s, fmul (some p.i) r.i.r2s]
  ([⟨r.b.r1, r2s_mean⟩, ⟨r.e.r1, r2s_mean⟩, ⟨r.i.r1, r2s_mean⟩],
   [some p.b, some p.e, some p.i])

/-- The fields of a scipy OptimizeResult consumed by this program: the
solution vector x, the achieved cost (the attribute named fun in scipy; a
float that can be NaN, e.g. when the enhancement cost of this program is
evaluated on a degenerate forward model), and the convergence flag
success.  minimize_global reads x and fval; nothing in the program reads
success. -/
structure MinResult where
  x : List ℚ
  fval : Flt
  success : Bool
deriving DecidableEq

/-- minimize_global, dce_fit.py lines 311-317.  mini models
scipy.optimize.minimize with the keyword arguments fixed by the caller.
results = [minimize(cost, x_0) for x_0 in x_0_all]; the minimum of their
cost values is taken (Python min raises ValueError on an empty list, the
`none` branch) and the result at the first index achieving it (list.index)
is returned. -/
def minimize_global (mini : (List ℚ → Flt) → List ℚ → MinResult)
    (cost : List ℚ → Flt) (x_0_all : List (List ℚ)) : Option MinResult :=
  let results := x_0_all.map (mini cost)
  let costs := results.map MinResult.fval
  match pymin costs with
  | none => none
  | some m => results[idxOf costs m]?

/-- The weighted sum of squares np.sum(weights * ((a - b)**2)) shared by
both fitting cost functions, over floating values. -/
def wssq (w : List ℚ) (a b : List Flt) : Flt :=
  fsum (zipWith3 (fun wi ai bi => fmul (some wi) (fmul (fsub ai bi) (fsub ai bi))) w a b)

/-- fit[weights == 0] = np.nan: overwrite the entries at zero-weight
positions with NaN. -/
def nanMask (w : List ℚ) (l : List Flt) : List Flt :=
  List.zipWith (fun wi x => if wi = 0 then (none : Flt) else x) w l

/-- The cost function closed over by conc_to_pkp (dce_fit.py lines
161-165): denormalize x, predict C_t with the pk model, weighted ssq
against the observed series. -/
def conc_cost (pkm : PKModel) (w C_t : List ℚ) (x_norm : List ℚ) : Flt :=
  wssq w (((pkm.concV (List.zipWith (fun a b => a * b) x_norm pkm.typical_vals)).1).map some)
    (C_t.map some)

/-- conc_to_pkp, dce_fit.py lines 115-176.  Initial guesses default to the
model's typical values, weights default to all ones; each initial guess is
normalized by typical_vals, minimize_global picks the best local result,
and the fitted curve is the model prediction at the denormalized optimum
with NaN written over the zero-weight samples. -/
def conc_to_pkp (mini : (List ℚ → Flt) → List ℚ → MinResult) (C_t : List ℚ)
    (pkm : PKModel) (pk_pars_0 : Option (List PKPars)) (weights : Option (List ℚ)) :
    Option (PKPars × List Flt) :=
  Option.map (fun result =>
      (pkm.pkp_dict (List.zipWith (fun a b => a * b) result.x pkm.typical_vals),
       nanMask (weights.getD (List.replicate C_t.length 1))
         (((pkm.concV (List.zipWith (fun a b => a * b) result.x pkm.typical_vals)).1).map some)))
    (minimize_global mini
      (conc_cost pkm (weights.getD (List.replicate C_t.length 1)) C_t)
      ((pk_pars_0.getD [pkm.pkp_dict pkm.typical_vals]).map
        (fun pars => List.zipWith (fun a b => a / b) (pkm.pkp_array pars) pkm.typical_vals)))

/-- The cost function closed over by enh_to_pkp (dce_fit.py lines
230-235): denormalize x, rebuild the parameter dictionary, run the full
forward model pkp_to_enh, weighted ssq against the observed enhancement. -/
def enh_cost (w enh : List ℚ) (hct k R10_tissue R10_blood : ℚ) (pkm : PKModel)
    (crm : CRModel) (wxm : WXModel) (sm : SigModel) (x_norm : List ℚ) : Flt :=
  wssq w
    (pkp_to_enh (pkm.pkp_dict (List.zipWith (fun a b => a * b) x_norm pkm.typical_vals))
      hct k R10_tissue R10_blood pkm crm wxm sm)
    (enh.map some)

/-- enh_to_pkp, dce_fit.py lines 179-246: the same multi-start estimation
as conc_to_pkp but with the forward model pkp_to_enh inside the cost, and
the fitted enhancement masked with NaN at zero-weight samples. -/
def enh_to_pkp (mini : (List ℚ → Flt) → List ℚ → MinResult) (enh : List ℚ)
    (hct k R10_tissue R10_blood : ℚ) (pkm : PKModel) (crm : CRModel) (wxm : WXModel)
    (sm : SigModel) (pk_pars_0 : Option (List PKPars)) (weights : Option (List ℚ)) :
    Option (PKPars × List Flt) :=
  Option.map (fun result =>
      (pkm.pkp_dict (List.zipWith (fun a b => a * b) result.x pkm.typical_vals),
       nanMask (weights.getD (List.replicate enh.length 1))
         (pkp_to_enh (pkm.pkp_dict (List.zipWith (fun a b => a * b) result.x pkm.typical_vals))
           hct k R10_tissue R10_blood pkm crm wxm sm)))
    (minimize_global mini
      (enh_cost (weights.getD (List.replicate enh.length 1)) enh hct k R10_tissue R10_blood
        pkm crm wxm sm)
      ((pk_pars_0.getD [pkm.pkp_dict pkm.typical_vals]).map
        (fun pars => List.zipWith (fun a b => a / b) (pkm.pkp_array pars) pkm.typical_vals)))

theorem optMap_eq_none {α β : Type} (g : α → Option β) :
    ∀ l : List α, optMap g l = none ↔ ∃ a ∈ l, g a = none := by
  intro l
  induction l with
  | nil => simp [optMap]
  | cons a as ih =>
    constructor
    · intro h
      cases hga : g a with
      | none => exact ⟨a, List.mem_cons_self a as, hga⟩
      | some b =>
        cases hrec : optMap g as with
        | none =>
          obtain ⟨x, hx, hgx⟩ := ih.mp hrec
          exact ⟨x, List.mem_cons_of_mem a hx, hgx⟩
        | some bs => simp [optMap, hga, hrec] at h
    · rintro ⟨x, hx, hgx⟩
      rcases List.mem_cons.mp hx with rfl | hx
      · simp [optMap, hgx]
      · cases hga : g a with
        | none => simp [optMap, hga]
        | some b =>
          have : optMap g as = none := (ih.mpr ⟨x, hx, hgx⟩)
          simp [optMap, hga, this]

theorem optMap_eq_some {α β : Type} (g : α → Option β) :
    ∀ (l : List α) (l₂ : List β), optMap g l = some l₂ →
      List.Forall₂ (fun a b => g a = some b) l l₂ := by
  intro l
  induction l with
  | nil =>
    intro l₂ h
    simp [optMap] at h
    subst h
    exact List.Forall₂.nil
  | cons a as ih =>
    intro l₂ h
    cases hga : g a with
    | none => simp [optMap, hga] at h
    | some b =>
      cases hrec : optMap g as with
      | none => simp [optMap, hga, hrec] at h
      | some bs =>
        simp [optMap, hga, hrec] at h
        rw [← h]
        exact List.Forall₂.cons hga (ih bs hrec)

theorem optMap_length {α β : Type} (g : α → Option β) (l : List α) (l₂ : List β)
    (h : optMap g l = some l₂) : l₂.length = l.length :=
  (optMap_eq_some g l l₂ h).length_eq.symm

theorem pymin_eq_none : ∀ l : List Flt, pymin l = none ↔ l = [] := by
  intro l
  cases l with
  | nil => simp [pymin]
  | cons c cs => simp [pymin]

theorem flt_le_refl : ∀ {a : Flt}, a ≠ none → flt_le a a = true := by
  intro a ha
  cases a with
  | none => exact absurd rfl ha
  | some q => simp [flt_le]

theorem flt_le_trans : ∀ {a b c : Flt},
    flt_le a b = true → flt_le b c = true → flt_le a c = true := by
  intro a b c hab hbc
  cases a with
  | none => simp [flt_le] at hab
  | some aq =>
    cases b with
    | none => simp [flt_le] at hab
    | some bq =>
      cases c with
      | none => simp [flt_le] at hbc
      | some cq =>
        simp only [flt_le, decide_eq_true_eq] at hab hbc ⊢
        exact le_trans hab hbc

theorem flt_lt_of_le_ne : ∀ {a b : Flt},
    flt_le a b = true → a ≠ b → flt_lt a b = true := by
  intro a b hab hne
  cases a with
  | none => simp [flt_le] at hab
  | some aq =>
    cases b with
    | none => simp [flt_le] at hab
    | some bq =>
      simp only [flt_le, decide_eq_true_eq] at hab
      simp only [flt_lt, decide_eq_true_eq]
      exact lt_of_le_of_ne hab (fun h => hne (by rw [h]))

theorem foldl_min_mem : ∀ (cs : List Flt) (c : Flt),
    cs.foldl (fun cur x => if flt_lt x cur then x else cur) c ∈ c :: cs := by
  intro cs
  induction cs with
  | nil => intro c; simp
  | cons x xs ih =>
    intro c
    have h := ih (if flt_lt x c then x else c)
    rw [List.foldl_cons]
    by_cases hx : flt_lt x c = true
    · rw [if_pos hx] at h ⊢
      exact List.mem_cons_of_mem c h
    · rw [if_neg hx] at h ⊢
      rcases List.mem_cons.mp h with h₂ | h₂
      · rw [h₂]; exact List.mem_cons_self c (x :: xs)
      · exact List.mem_cons_of_mem c (List.mem_cons_of_mem x h₂)

theorem pymin_mem : ∀ {l : List Flt} {m : Flt}, pymin l = some m → m ∈ l := by
  intro l m h
  cases l with
  | nil => simp [pymin] at h
  | cons c cs =>
    simp only [pymin] at h
    injection h with h₂
    rw [← h₂]
    exact foldl_min_mem cs c

theorem foldl_min_le : ∀ (cs : List Flt) (c : Flt), c ≠ none → (∀ x ∈ cs, x ≠ none) →
    ∀ y ∈ c :: cs,
      flt_le (cs.foldl (fun cur x => if flt_lt x cur then x else cur) c) y = true := by
  intro cs
  induction cs with
  | nil =>
    intro c hc _ y hy
    simp only [List.foldl_nil]
    simp at hy
    rw [hy]
    exact flt_le_refl hc
  | cons x xs ih =>
    intro c hc hfin y hy
    have hx : x ≠ none := hfin x (List.mem_cons_self x xs)
    have hcur : (if flt_lt x c then x else c) ≠ none := by
      by_cases h : flt_lt x c = true
      · rw [if_pos h]; exact hx
      · rw [if_neg h]; exact hc
    have hrec := ih (if flt_lt x c then x else c) hcur
      (fun z hz => hfin z (List.mem_cons_of_mem x hz))
    have hcur_le_c : flt_le (if flt_lt x c then x else c) c = true := by
      by_cases h : flt_lt x c = true
      · rw [if_pos h]
        cases x with
        | none => exact absurd rfl hx
        | some xq =>
          cases c with
          | none => exact absurd rfl hc
          | some cq =>
            simp only [flt_lt, decide_eq_true_eq] at h
            simp only [flt_le, decide_eq_true_eq]
            exact le_of_lt h
      · rw [if_neg h]; exact flt_le_refl hc
    have hcur_le_x : flt_le (if flt_lt x c then x else c) x = true := by
      by_cases h : flt_lt x c = true
      · rw [if_pos h]; exact flt_le_refl hx
      · rw [if_neg h]
        cases x with
        | none => exact absurd rfl hx
        | some xq =>
          cases c with
          | none => exact absurd rfl hc
          | some cq =>
            simp only [flt_lt, decide_eq_false_iff_not, decide_eq_true_eq] at h
            simp only [flt_le, decide_eq_true_eq]
            exact le_of_not_lt h
    have hres_le_cur := hrec (if flt_lt x c then x else c)
      (List.mem_cons_self (if flt_lt x c then x else c) xs)
    rw [List.foldl_cons]
    rcases List.mem_cons.mp hy with h₂ | h₂
    · rw [h₂]
      exact flt_le_trans hres_le_cur hcur_le_c
    · rcases List.mem_cons.mp h₂ with h₃ | h₃
      · rw [h₃]
        exact flt_le_trans hres_le_cur hcur_le_x
      · exact hrec y (List.mem_cons_of_mem (if flt_lt x c then x else c) h₃)

theorem pymin_le_finite : ∀ {l : List Flt} {m : Flt}, (∀ x ∈ l, x ≠ none) →
    pymin l = some m → ∀ y ∈ l, flt_le m y = true := by
  intro l m hfin h
  cases l with
  | nil => simp [pymin] at h
  | cons c cs =>
    simp only [pymin] at h
    injection h with h₂
    rw [← h₂]
    exact foldl_min_le cs c (hfin c (List.mem_cons_self c cs))
      (fun z hz => hfin z (List.mem_cons_of_mem c hz))

theorem idxOf_lt_length : ∀ {l : List Flt} {a : Flt}, a ∈ l → idxOf l a < l.length := by
  intro l
  induction l with
  | nil => intro a h; simp at h
  | cons x xs ih =>
    intro a h
    by_cases hxa : x = a
    · simp [idxOf, hxa]
    · rcases List.mem_cons.mp h with rfl | h
      · exact absurd rfl hxa
      · simp only [idxOf, if_neg hxa, List.length_cons]
        exact Nat.succ_lt_succ (ih h)

theorem getElem?_idxOf : ∀ {l : List Flt} {a : Flt}, a ∈ l → l[idxOf l a]? = some a := by
  intro l
  induction l with
  | nil => intro a h; simp at h
  | cons x xs ih =>
    intro a h
    by_cases hxa : x = a
    · simp [idxOf, hxa]
    · rcases List.mem_cons.mp h with rfl | h
      · exact absurd rfl hxa
      · simp only [idxOf, if_neg hxa]
        simpa using ih h

theorem before_idxOf : ∀ {l : List Flt} {a : Flt} {j : ℕ} {y : Flt},
    j < idxOf l a → l[j]? = some y → y ≠ a := by
  intro l
  induction l with
  | nil => intro a j y _ hy; simp at hy
  | cons x xs ih =>
    intro a j y hj hy
    by_cases hxa : x = a
    · simp [idxOf, hxa] at hj
    · simp only [idxOf, if_neg hxa] at hj
      cases j with
      | zero =>
        simp at hy
        rw [← hy]; exact hxa
      | succ j₂ =>
        simp only [List.getElem?_cons_succ] at hy
        exact ih (Nat.lt_of_succ_lt_succ hj) hy

theorem fsum_cons (x : Flt) (xs : List Flt) : fsum (x :: xs) = fadd x (fsum xs) := rfl

theorem zipWith3_cons {α β γ δ : Type} (f : α → β → γ → δ) (a : α) (as : List α)
    (b : β) (bs : List β) (c : γ) (cs : List γ) :
    zipWith3 f (a :: as) (b :: bs) (c :: cs) = f a b c :: zipWith3 f as bs cs := rfl

theorem wssq_congr : ∀ (w : List ℚ) (a : List Flt) (b b' : List ℚ),
    b.length = b'.length →
    (∀ i : ℕ, w.getD i 1 ≠ 0 → b.getD i 0 = b'.getD i 0) →
    wssq w a (b.map some) = wssq w a (b'.map some) := by
  intro w
  induction w with
  | nil => intro a b b' _ _; rfl
  | cons w0 ws ih =>
    intro a b b' hlen h
    cases a with
    | nil => rfl
    | cons a0 as =>
      cases b with
      | nil =>
        cases b' with
        | nil => rfl
        | cons => simp at hlen
      | cons b0 bs =>
        cases b' with
        | nil => simp at hlen
        | cons b0' bs' =>
          have htail : wssq ws as (bs.map some) = wssq ws as (bs'.map some) :=
            ih as bs bs' (by simpa using hlen) (fun i => h (i + 1))
          simp only [wssq, List.map_cons, zipWith3_cons, fsum_cons]
          simp only [wssq] at htail
          rw [htail]
          congr 1
          by_cases hw : w0 = 0
          · subst hw
            cases a0 with
            | none => rfl
            | some av => simp [fsub, fmul]
          · have hb : b0 = b0' := by
              have := h 0 (by simpa using hw)
              simpa using this
            rw [hb]

theorem nanMask_getD_some : ∀ (w : List ℚ) (l : List ℚ) (i : ℕ),
    i < (nanMask w (l.map some)).length →
    ((nanMask w (l.map some)).getD i (some 0) = none ↔ w.getD i 1 = 0) := by
  intro w
  induction w with
  | nil => intro l i h; simp [nanMask] at h
  | cons w0 ws ih =>
    intro l i h
    cases l with
    | nil => simp [nanMask] at h
    | cons l0 ls =>
      cases i with
      | zero =>
        by_cases hw : w0 = 0 <;> simp [nanMask, hw]
      | succ i₂ =>
        simp only [nanMask, List.map_cons, List.zipWith_cons_cons, List.length_cons] at h
        have := ih ls i₂ (Nat.lt_of_succ_lt_succ h)
        simpa [nanMask] using this

theorem nanMask_getD_zero : ∀ (w : List ℚ) (l : List Flt) (i : ℕ),
    i < (nanMask w l).length → w.getD i 1 = 0 →
    (nanMask w l).getD i (some 0) = none := by
  intro w
  induction w with
  | nil => intro l i h; simp [nanMask] at h
  | cons w0 ws ih =>
    intro l i h hw
    cases l with
    | nil => simp [nanMask] at h
    | cons l0 ls =>
      cases i with
      | zero => simp_all [nanMask]
      | succ i₂ =>
        simp only [nanMask, List.zipWith_cons_cons, List.length_cons] at h
        simp only [List.getD_cons_succ] at hw
        have := ih ls i₂ (Nat.lt_of_succ_lt_succ h) hw
        simpa [nanMask] using this

/-- A simple minimizer stub for concrete evaluations: reports the starting
point itself and its cost there. -/
def mini0 : (List ℚ → Flt) → List ℚ → MinResult :=
  fun cost x0 => ⟨x0, cost x0, true⟩

/-- A simple cost for concrete evaluations: the first coordinate. -/
def cost0 : List ℚ → Flt := fun l => some (l.getD 0 0)

/-- A minimizer stub whose first start reports a NaN cost and whose other
starts report the finite cost 1. -/
def mini_nan : (List ℚ → Flt) → List ℚ → MinResult :=
  fun _ x0 => if x0 = [0] then ⟨[0], none, true⟩ else ⟨[1], some 1, true⟩

/-- C4 counterexample: the multi-start monotonicity and tie-break fail
when a start reports a NaN cost (which this program's enhancement cost
can produce, see fit_weight_exclusion_cex).  Python min never replaces a
NaN first element (every comparison with NaN is false) and list.index
finds that same object, so minimize_global returns the NaN-cost result
of the first start even though the second start achieved the finite cost
1 — and a NaN cost is not <= 1. -/
theorem minimize_global_best_cex :
    minimize_global mini_nan cost0 [[0], [1]] = some ⟨[0], none, true⟩ ∧
    (mini_nan cost0 [1]).fval = some 1 ∧
    flt_le (⟨[0], none, true⟩ : MinResult).fval (some 1) = false := by
  refine ⟨by decide, by decide, rfl⟩

/-- C4 (amended): multi-start monotonicity and tie-break, for comparable
costs.  For every cost function and every list of at least two initial
guesses all of whose local results report finite (non-NaN) costs, the
cost of the result returned by minimize_global is at most the cost
achieved by the local minimization started from any single one of those
guesses alone, and the returned result is the one of the first start (in
iteration order) achieving the minimal cost. -/
theorem minimize_global_best (mini : (List ℚ → Flt) → List ℚ → MinResult)
    (cost : List ℚ → Flt) (xs : List (List ℚ)) (r : MinResult)
    (_hN : 2 ≤ xs.length)
    (hfin : ∀ x0 ∈ xs, (mini cost x0).fval ≠ none)
    (hr : minimize_global mini cost xs = some r) :
    (∀ x0 ∈ xs, flt_le r.fval (mini cost x0).fval = true) ∧
    ∃ i, i < xs.length ∧ r = mini cost (xs.getD i []) ∧
      ∀ j, j < i → flt_lt r.fval ((mini cost (xs.getD j [])).fval) = true := by
  have hcfin : ∀ y ∈ (xs.map (mini cost)).map MinResult.fval, y ≠ none := by
    intro y hy
    rcases List.mem_map.mp hy with ⟨res, hres, hy₂⟩
    rcases List.mem_map.mp hres with ⟨x0, hx0, hres₂⟩
    rw [← hy₂, ← hres₂]
    exact hfin x0 hx0
  simp only [minimize_global] at hr
  cases hmin : pymin ((xs.map (mini cost)).map MinResult.fval) with
  | none => rw [hmin] at hr; simp at hr
  | some m =>
    rw [hmin] at hr
    have hr₂ : (xs.map (mini cost))[idxOf ((xs.map (mini cost)).map MinResult.fval) m]? = some r := hr
    have hmem : m ∈ (xs.map (mini cost)).map MinResult.fval := pymin_mem hmin
    have hidx : idxOf ((xs.map (mini cost)).map MinResult.fval) m <
        ((xs.map (mini cost)).map MinResult.fval).length := idxOf_lt_length hmem
    have hidx₂ : idxOf ((xs.map (mini cost)).map MinResult.fval) m < xs.length := by
      simpa using hidx
    have hcs_at : ((xs.map (mini cost)).map MinResult.fval)[idxOf ((xs.map (mini cost)).map MinResult.fval) m]? = some m :=
      getElem?_idxOf hmem
    have hrv : r.fval = m := by
      rw [List.getElem?_map, hr₂] at hcs_at
      simpa using hcs_at
    constructor
    · intro x0 hx0
      have hc_mem : (mini cost x0).fval ∈ (xs.map (mini cost)).map MinResult.fval :=
        List.mem_map.mpr ⟨mini cost x0, List.mem_map.mpr ⟨x0, hx0, rfl⟩, rfl⟩
      rw [hrv]
      exact pymin_le_finite hcfin hmin _ hc_mem
    · refine ⟨idxOf ((xs.map (mini cost)).map MinResult.fval) m, hidx₂, ?_, ?_⟩
      · rw [List.getElem?_map, List.getElem?_eq_getElem hidx₂] at hr₂
        simp only [Option.map_some'] at hr₂
        rw [List.getD_eq_getElem xs [] hidx₂]
        injection hr₂ with hr₃
        exact hr₃.symm
      · intro j hj
        have hj₂ : j < xs.length := lt_trans hj hidx₂
        have hcs_j : ((xs.map (mini cost)).map MinResult.fval)[j]? =
            some ((mini cost (xs.getD j [])).fval) := by
          rw [List.getElem?_map, List.getElem?_map, List.getElem?_eq_getElem hj₂,
            List.getD_eq_getElem xs [] hj₂]
          rfl
        have hne : (mini cost (xs.getD j [])).fval ≠ m := before_idxOf hj hcs_j
        have hmem_j : (mini cost (xs.getD j [])).fval ∈ (xs.map (mini cost)).map MinResult.fval := by
          refine List.mem_map.mpr ⟨mini cost (xs.getD j []), List.mem_map.mpr ⟨xs.getD j [], ?_, rfl⟩, rfl⟩
          rw [List.getD_eq_getElem xs [] hj₂]
          exact List.getElem_mem hj₂
        have hle : flt_le m ((mini cost (xs.getD j [])).fval) = true :=
          pymin_le_finite hcfin hmin _ hmem_j
        rw [hrv]
        exact flt_lt_of_le_ne hle (Ne.symm hne)

theorem minimize_global_best_witness :
    (∀ x0 ∈ [[(5 : ℚ)], [3], [4]],
      flt_le (⟨[3], some 3, true⟩ : MinResult).fval (mini0 cost0 x0).fval = true) ∧
    ∃ i, i < [[(5 : ℚ)], [3], [4]].length ∧
      (⟨[3], some 3, true⟩ : MinResult) = mini0 cost0 ([[(5 : ℚ)], [3], [4]].getD i []) ∧
      ∀ j, j < i →
        flt_lt (⟨[3], some 3, true⟩ : MinResult).fval
          ((mini0 cost0 ([[(5 : ℚ)], [3], [4]].getD j [])).fval) = true :=
  minimize_global_best mini0 cost0 [[5], [3], [4]] ⟨[3], some 3, true⟩ (by decide) (by decide)
    (by decide)

/-- C5 (amended): minimize_global has no failure path tied to
convergence.  It never inspects the success flags of the local results:
it returns `none` exactly when the initial-guess list is empty (Python min
of an empty list raises ValueError), and otherwise returns the result
produced by one of the starts — converged or not. -/
theorem minimize_global_no_success_filter (mini : (List ℚ → Flt) → List ℚ → MinResult)
    (cost : List ℚ → Flt) (xs : List (List ℚ)) :
    (minimize_global mini cost xs = none ↔ xs = []) ∧
    ∀ r : MinResult, minimize_global mini cost xs = some r → ∃ x0 ∈ xs, r = mini cost x0 := by
  constructor
  · constructor
    · intro h
      simp only [minimize_global] at h
      cases hmin : pymin ((xs.map (mini cost)).map MinResult.fval) with
      | none =>
        have := (pymin_eq_none _).mp hmin
        simpa using this
      | some m =>
        rw [hmin] at h
        have h₂ : (xs.map (mini cost))[idxOf ((xs.map (mini cost)).map MinResult.fval) m]? = none := h
        have hmem : m ∈ (xs.map (mini cost)).map MinResult.fval := pymin_mem hmin
        have hidx : idxOf ((xs.map (mini cost)).map MinResult.fval) m < (xs.map (mini cost)).length := by
          have := idxOf_lt_length hmem
          simpa using this
        rw [List.getElem?_eq_getElem hidx] at h₂
        simp at h₂
    · intro h
      subst h
      rfl
  · intro r hr
    simp only [minimize_global] at hr
    cases hmin : pymin ((xs.map (mini cost)).map MinResult.fval) with
    | none => rw [hmin] at hr; simp at hr
    | some m =>
      rw [hmin] at hr
      have hr₂ : (xs.map (mini cost))[idxOf ((xs.map (mini cost)).map MinResult.fval) m]? = some r := hr
      have hmem : m ∈ (xs.map (mini cost)).map MinResult.fval := pymin_mem hmin
      have hidx : idxOf ((xs.map (mini cost)).map MinResult.fval) m < xs.length := by
        have := idxOf_lt_length hmem
        simpa using this
      rw [List.getElem?_map, List.getElem?_eq_getElem hidx] at hr₂
      simp only [Option.map_some'] at hr₂
      injection hr₂ with hr₃
      exact ⟨xs[idxOf ((xs.map (mini cost)).map MinResult.fval) m], List.getElem_mem hidx, hr₃.symm⟩

/-- A minimizer stub reporting non-convergence with the lowest cost from
the start [0] and convergence with a higher cost from anywhere else. -/
def mini_bad : (List ℚ → Flt) → List ℚ → MinResult :=
  fun _ x0 => if x0 = [0] then ⟨[0], some 0, false⟩ else ⟨[1], some 1, true⟩

/-- A minimizer stub for which every start reports non-convergence. -/
def mini_allbad : (List ℚ → Flt) → List ℚ → MinResult :=
  fun _ x0 => ⟨x0, some 0, false⟩

/-- C5 counterexample: the claimed failure policy is not what the code
does.  With two starts of which the second converges (success = true) and
the first does not but has the lower reported cost, minimize_global
returns the non-converged result; and when every start reports
non-convergence, minimize_global still returns a result instead of
propagating a failure. -/
theorem minimize_global_success_cex :
    minimize_global mini_bad cost0 [[0], [1]] = some ⟨[0], some 0, false⟩ ∧
    (mini_bad cost0 [1]).success = true ∧
    (⟨[0], some 0, false⟩ : MinResult).success = false ∧
    minimize_global mini_allbad cost0 [[7]] = some ⟨[7], some 0, false⟩ := by
  refine ⟨by decide, by decide, rfl, by decide⟩

theorem minimize_global_no_success_filter_witness :
    ∃ x0 ∈ [[(0 : ℚ)], [1]], (⟨[0], some 0, false⟩ : MinResult) = mini_bad cost0 x0 :=
  (minimize_global_no_success_filter mini_bad cost0 [[0], [1]]).2 ⟨[0], some 0, false⟩ (by decide)

/-- C2: volume fraction conservation.  For every PK parameter set and
hematocrit for which volume_fractions yields non-negative fractions, the
blood, extracellular and intracellular fractions sum to 1 (exactly, in
exact arithmetic). -/
theorem volume_fractions_sum (pk : PKPars) (hct : ℚ)
    (_hb : 0 ≤ (volume_fractions pk hct).b)
    (_he : 0 ≤ (volume_fractions pk hct).e)
    (_hi : 0 ≤ (volume_fractions pk hct).i) :
    (volume_fractions pk hct).b + (volume_fractions pk hct).e + (volume_fractions pk hct).i = 1 := by
  obtain ⟨vp, ve, rest⟩ := pk
  cases ve with
  | none =>
    cases vp with
    | none => simp only [volume_fractions]; ring
    | some vpv => simp only [volume_fractions]; ring
  | some vev =>
    cases vp with
    | none => simp only [volume_fractions]; ring
    | some vpv => simp only [volume_fractions]; ring

theorem volume_fractions_sum_witness :
    (0 ≤ (volume_fractions ⟨some (1/4), some (1/2), []⟩ 0).b ∧
     0 ≤ (volume_fractions ⟨some (1/4), some (1/2), []⟩ 0).e ∧
     0 ≤ (volume_fractions ⟨some (1/4), some (1/2), []⟩ 0).i) ∧
    (volume_fractions ⟨some (1/4), some (1/2), []⟩ 0).b +
      (volume_fractions ⟨some (1/4), some (1/2), []⟩ 0).e +
      (volume_fractions ⟨some (1/4), some (1/2), []⟩ 0).i = 1 :=
  ⟨⟨by norm_num [volume_fractions], by norm_num [volume_fractions], by norm_num [volume_fractions]⟩,
   volume_fractions_sum ⟨some (1/4), some (1/2), []⟩ 0 (by norm_num [volume_fractions])
     (by norm_num [volume_fractions]) (by norm_num [volume_fractions])⟩

/-- C3: two-compartment degeneracy.  When the extracellular-volume key ve
is absent, volume_fractions returns an intracellular fraction of exactly 0
and an extracellular fraction of exactly 1 - vb, where vb is the blood
fraction vp / (1 - hct) if the plasma-volume key vp is present and 0
otherwise. -/
theorem volume_fractions_two_compartment (pk : PKPars) (hct : ℚ) (h : pk.ve = none) :
    (volume_fractions pk hct).i = 0 ∧
    (volume_fractions pk hct).e = 1 - (volume_fractions pk hct).b ∧
    (volume_fractions pk hct).b = Option.elim pk.vp 0 (fun vp => vp / (1 - hct)) := by
  obtain ⟨vp, ve, rest⟩ := pk
  cases ve with
  | some vev => simp at h
  | none =>
    cases vp with
    | none => simp [volume_fractions]
    | some vpv => simp [volume_fractions]

theorem volume_fractions_two_compartment_witness :
    (volume_fractions ⟨some (1/5), none, []⟩ (1/2)).i = 0 ∧
    (volume_fractions ⟨some (1/5), none, []⟩ (1/2)).e =
      1 - (volume_fractions ⟨some (1/5), none, []⟩ (1/2)).b ∧
    (volume_fractions ⟨some (1/5), none, []⟩ (1/2)).b =
      Option.elim (some (1/5) : Option ℚ) 0 (fun vp => vp / (1 - 1/2)) :=
  volume_fractions_two_compartment ⟨some (1/5), none, []⟩ (1/2) rfl

/-- C6 counterexample: sig_to_enh does not fail on an empty baseline index
set or a zero baseline reference.  With an empty baseline it returns
normally with every sample NaN (np.mean of an empty array is NaN with a
warning), and with a zero reference it returns normally with every sample
non-finite (division by zero), instead of raising a domain error. -/
theorem sig_to_enh_no_error_cex :
    sig_to_enh [1, 2] [] = some [none, none] ∧
    sig_to_enh [1, -1, 4] [0, 1] = some [none, none, none] := by
  constructor
  · rfl
  · norm_num [sig_to_enh, optMap, nmean, fsub, fdiv, fmul]

/-- C6 (amended): when the baseline index set is empty or the baseline
reference is zero, sig_to_enh does not raise a distinguishable domain
error; it silently returns a full-length enhancement series every sample
of which is non-finite (NaN or Inf).  The only exception sig_to_enh can
raise is an IndexError for an out-of-range baseline index. -/
theorem sig_to_enh_silent_nan (s : List ℚ) (base_idx : List ℕ)
    (hdeg : baselineRef s base_idx = some none ∨ baselineRef s base_idx = some (some 0)) :
    ∃ l, sig_to_enh s base_idx = some l ∧ l.length = s.length ∧ ∀ x ∈ l, x = none := by
  rcases hdeg with hd | hd
  · simp only [baselineRef] at hd
    cases hsel : optMap (fun i => s[i]?) base_idx with
    | none => rw [hsel] at hd; simp at hd
    | some sel =>
      rw [hsel] at hd
      simp only [Option.map_some'] at hd
      injection hd with hd₂
      refine ⟨s.map (fun sj => fmul (some 100) (fdiv (fsub (some sj) (nmean sel)) (nmean sel))),
        ?_, by simp, ?_⟩
      · unfold sig_to_enh
        rw [hsel]
      · intro x hx
        simp only [List.mem_map] at hx
        obtain ⟨sj, _, hxeq⟩ := hx
        rw [← hxeq, hd₂]
        rfl
  · simp only [baselineRef] at hd
    cases hsel : optMap (fun i => s[i]?) base_idx with
    | none => rw [hsel] at hd; simp at hd
    | some sel =>
      rw [hsel] at hd
      simp only [Option.map_some'] at hd
      injection hd with hd₂
      refine ⟨s.map (fun sj => fmul (some 100) (fdiv (fsub (some sj) (nmean sel)) (nmean sel))),
        ?_, by simp, ?_⟩
      · unfold sig_to_enh
        rw [hsel]
      · intro x hx
        simp only [List.mem_map] at hx
        obtain ⟨sj, _, hxeq⟩ := hx
        rw [← hxeq, hd₂]
        simp [fsub, fdiv, fmul]

theorem sig_to_enh_silent_nan_witness :
    (baselineRef [1, 2] [] = some none ∨ baselineRef [1, 2] [] = some (some 0)) ∧
    ∃ l, sig_to_enh [1, 2] [] = some l ∧ l.length = ([1, 2] : List ℚ).length ∧
      ∀ x ∈ l, x = none :=
  ⟨Or.inl (by decide), sig_to_enh_silent_nan [1, 2] [] (Or.inl (by decide))⟩

/-- C7: per-sample root-finding failure is fatal for the whole
conversion.  enh_to_conc returns no concentration series at all exactly
when the root finder fails to converge on at least one sample (the source
asserts res.success inside the per-sample loop); on success the returned
series has one entry per input sample, so no sample is skipped or
substituted. -/
theorem enh_to_conc_all_or_nothing (rf : (ℚ → Flt) → ℚ → Option ℚ) (enh : List Flt)
    (k R10 : ℚ) (crm : CRModel) (sm : SigModel) :
    (enh_to_conc rf enh k R10 crm sm = none ↔
      ∃ e ∈ enh, rf (fun c => fsub e (conc_to_enh_single c k R10 crm sm)) 0 = none) ∧
    ∀ C, enh_to_conc rf enh k R10 crm sm = some C → C.length = enh.length := by
  constructor
  · exact optMap_eq_none _ enh
  · intro C hC
    exact optMap_length _ enh C hC

/-- An idealized root finder that accepts the starting point when it is an
exact root and reports non-convergence otherwise. -/
def rf_eval : (ℚ → Flt) → ℚ → Option ℚ :=
  fun f x0 => if f x0 = some 0 then some x0 else none

theorem rf_eval_exact : ∀ (f : ℚ → Flt) (x0 x : ℚ), rf_eval f x0 = some x → f x = some 0 := by
  intro f x0 x h
  by_cases hf : f x0 = some 0
  · simp only [rf_eval, if_pos hf] at h
    injection h with h₂
    rw [← h₂]
    exact hf
  · simp [rf_eval, if_neg hf] at h

/-- A linear relaxation model: R1(R10, c) = R10 + c (and likewise R2). -/
def crm_lin : CRModel := ⟨fun r c => fadd r c, fun r c => fadd r c⟩

/-- A signal model returning R1 itself (a valid opaque collaborator). -/
def sm_id : SigModel := ⟨fun _ R1 _ _ _ => R1⟩

theorem enh_to_conc_all_or_nothing_witness :
    ([(0 : ℚ)] : List ℚ).length = ([some 0] : List Flt).length :=
  (enh_to_conc_all_or_nothing rf_eval [some 0] 1 100 crm_lin sm_id).2 [0]
    (by norm_num [enh_to_conc, optMap, rf_eval, conc_to_enh_single, crm_lin, sm_id,
      fsub, fadd, fdiv, fmul])

/-- A quadratic relaxation model: R1(R10, c) = R10 + c * c, injective in
neither direction around 0. -/
def crm_quad : CRModel := ⟨fun r c => fadd r (fmul c c), fun _ _ => some 0⟩

/-- An idealized root finder that returns the exact root -1 whenever -1 is
a root, modelling a hybr search that converges to the negative root. -/
def rf_neg : (ℚ → Flt) → ℚ → Option ℚ :=
  fun f _ => if f (-1) = some 0 then some (-1) else none

theorem rf_neg_exact : ∀ (f : ℚ → Flt) (x0 x : ℚ), rf_neg f x0 = some x → f x = some 0 := by
  intro f x0 x h
  by_cases hf : f (-1) = some 0
  · simp only [rf_neg, if_pos hf] at h
    injection h with h₂
    rw [← h₂]
    exact hf
  · simp [rf_neg, if_neg hf] at h

/-- C1 counterexample: with the quadratic relaxation model crm_quad and
signal model sm_id, the concentration series [1] produces the enhancement
series that the exact root finder rf_neg (see rf_neg_exact) inverts to
[-1]: the round trip converges at every sample yet returns a series far
outside any root-finder tolerance of the original. -/
theorem roundtrip_enh_conc_cex :
    enh_to_conc rf_neg (conc_to_enh [1] 1 100 crm_quad sm_id) 1 100 crm_quad sm_id =
      some [-1] ∧
    ¬(|(-1 : ℚ) - 1| ≤ 1 / 1000000) := by
  constructor
  · norm_num [enh_to_conc, conc_to_enh, optMap, rf_neg, conc_to_enh_single, crm_quad, sm_id,
      fsub, fadd, fdiv, fmul]
  · norm_num

/-- C1 (amended): an exact-root round trip reproduces the enhancement,
not necessarily the concentration.  For every root finder rf whose
successful results are exact roots, if the round trip
enh_to_conc(conc_to_enh(C)) succeeds with result C₂, then C₂ reproduces
the same enhancement as C samplewise; when the enhancement map
conc_to_enh_single is additionally injective in the concentration (for
the given k, R10 and models), C₂ = C. -/
theorem roundtrip_enh_conc (rf : (ℚ → Flt) → ℚ → Option ℚ)
    (hrf : ∀ (f : ℚ → Flt) (x0 x : ℚ), rf f x0 = some x → f x = some 0)
    (k R10 : ℚ) (crm : CRModel) (sm : SigModel) (C C₂ : List ℚ)
    (hrt : enh_to_conc rf (conc_to_enh C k R10 crm sm) k R10 crm sm = some C₂) :
    List.Forall₂ (fun c₂ c =>
      conc_to_enh_single c₂ k R10 crm sm = conc_to_enh_single c k R10 crm sm) C₂ C ∧
    (Function.Injective (fun c => conc_to_enh_single c k R10 crm sm) → C₂ = C) := by
  have hall := optMap_eq_some _ _ _ hrt
  rw [conc_to_enh] at hall
  have hall₂ := List.forall₂_map_left_iff.mp hall
  have key : List.Forall₂ (fun c c₂ =>
      conc_to_enh_single c k R10 crm sm = conc_to_enh_single c₂ k R10 crm sm) C C₂ :=
    hall₂.imp (fun a b hab => fsub_eq_some_zero (hrf _ 0 _ hab))
  constructor
  · exact key.flip.imp (fun a b hab => hab.symm)
  · intro hinj
    have heq : List.Forall₂ (fun c c₂ => c = c₂) C C₂ := key.imp (fun a b hab => hinj hab)
    rw [List.forall₂_eq_eq_eq] at heq
    exact heq.symm

theorem roundtrip_enh_conc_witness :
    List.Forall₂ (fun c₂ c =>
      conc_to_enh_single c₂ 1 100 crm_lin sm_id = conc_to_enh_single c 1 100 crm_lin sm_id)
      [0] [0] ∧
    (Function.Injective (fun c => conc_to_enh_single c 1 100 crm_lin sm_id) →
      [(0 : ℚ)] = [0]) :=
  roundtrip_enh_conc rf_eval rf_eval_exact 1 100 crm_lin sm_id [0] [0]
    (by norm_num [enh_to_conc, conc_to_enh, optMap, rf_eval, conc_to_enh_single, crm_lin,
      sm_id, fsub, fadd, fdiv, fmul])

/-- C9: implicit precondition of the forward model.  pkp_to_enh divides
the plasma concentration by the blood volume fraction, the extravascular
concentration by the extracellular fraction, and the extravascular
pre-contrast rate computation by (1 - blood fraction).  When the
plasma-volume key vp is absent the blood fraction is 0 and every blood
compartment concentration becomes a division by zero (non-finite, with
only a numpy warning, never a distinguishable error — pkp_to_enh has no
failure path); likewise the computation degenerates when the blood
fraction is 1 or the extracellular fraction is 0. -/
theorem pkp_to_enh_divzero (pk : PKPars) (hct : ℚ) (pkm : PKModel) (R10t R10b : ℚ)
    (v : CompDict ℚ) (hvp : pk.vp = none) (hve : v.e = 0) :
    (volume_fractions pk hct).b = 0 ∧
    (pkp_conc_c pkm pk (volume_fractions pk hct)).b =
      ((pkm.concP pk).2.1).map (fun _ => none) ∧
    pkp_R10_extravasc R10t R10b 1 = none ∧
    (pkp_conc_c pkm pk v).e = ((pkm.concP pk).2.2).map (fun _ => none) := by
  have hb : (volume_fractions pk hct).b = 0 := by
    obtain ⟨vp, ve, rest⟩ := pk
    simp only at hvp
    subst hvp
    cases ve <;> simp [volume_fractions]
  refine ⟨hb, ?_, ?_, ?_⟩
  · simp only [pkp_conc_c, hb]
    simp [fdivQ]
  · simp [pkp_R10_extravasc, fdivQ]
  · simp only [pkp_conc_c, hve]
    simp [fdivQ]

/-- A trivial concrete pharmacokinetic model used for witnesses. -/
def pkm0 : PKModel :=
  { typical_vals := [1]
  , pkp_array := fun _ => [1]
  , pkp_dict := fun _ => ⟨none, none, []⟩
  , concV := fun _ => ([0], [0], [0])
  , concP := fun _ => ([0], [0], [0]) }

theorem pkp_to_enh_divzero_witness :
    (volume_fractions ⟨none, some (1/2), []⟩ 0).b = 0 ∧
    (pkp_conc_c pkm0 ⟨none, some (1/2), []⟩ (volume_fractions ⟨none, some (1/2), []⟩ 0)).b =
      ((pkm0.concP ⟨none, some (1/2), []⟩).2.1).map (fun _ => none) ∧
    pkp_R10_extravasc 1 1 1 = none ∧
    (pkp_conc_c pkm0 ⟨none, some (1/2), []⟩ ⟨0, 0, 0⟩).e =
      ((pkm0.concP ⟨none, some (1/2), []⟩).2.2).map (fun _ => none) :=
  pkp_to_enh_divzero ⟨none, some (1/2), []⟩ 0 pkm0 1 1 ⟨0, 0, 0⟩ rfl rfl

/-- C10: the intracellular compartment carries no tracer.  pkp_to_enh
always hands the relaxation model an identically zero concentration series
for the intracellular compartment (np.zeros(C_e.shape)), so the
intracellular post-contrast R1 series is the relaxation model evaluated
at concentration 0 — equal to the pre-contrast rate R10.i for any
relaxation model with R1(R10, 0) = R10.  This happens before the
water-exchange decomposition, hence holds under both regimes: the
no-exchange decomposition keeps each compartment's r1 as its own
component, and the fast-exchange decomposition folds it into the single
p-weighted mean component. -/
theorem pkp_intracellular_zero_conc (pkm : PKModel) (pk : PKPars) (v : CompDict ℚ)
    (crm : CRModel) (R10 : CompDict Flt) (rr : CompDict RPair) (p : CompDict ℚ)
    (h : ∀ r : Flt, crm.R1 r (some 0) = r) :
    (pkp_conc_c pkm pk v).i = List.replicate ((pkm.concP pk).2.2).length (some 0) ∧
    (pkp_R1 crm R10 (pkp_conc_c pkm pk v)).i =
      List.replicate ((pkm.concP pk).2.2).length R10.i ∧
    (r_compartments_to_components_nxl rr p).1.map RPair.r1 = [rr.b.r1, rr.e.r1, rr.i.r1] ∧
    (r_compartments_to_components_fxl rr p).1.map RPair.r1 =
      [fsum [fmul (some p.b) rr.b.r1, fmul (some p.e) rr.e.r1, fmul (some p.i) rr.i.r1]] := by
  refine ⟨rfl, ?_, rfl, rfl⟩
  simp [pkp_R1, pkp_conc_c, List.map_replicate, h]

theorem pkp_intracellular_zero_conc_witness :
    (pkp_conc_c pkm0 ⟨none, none, []⟩ ⟨0, 0, 0⟩).i =
      List.replicate ((pkm0.concP ⟨none, none, []⟩).2.2).length (some 0) ∧
    (pkp_R1 crm_lin ⟨some 1, some 1, some 1⟩ (pkp_conc_c pkm0 ⟨none, none, []⟩ ⟨0, 0, 0⟩)).i =
      List.replicate ((pkm0.concP ⟨none, none, []⟩).2.2).length (some 1) ∧
    (r_compartments_to_components_nxl
        ⟨⟨some 1, some 0⟩, ⟨some 1, some 0⟩, ⟨some 1, some 0⟩⟩ ⟨1, 0, 0⟩).1.map RPair.r1 =
      [some 1, some 1, some 1] ∧
    (r_compartments_to_components_fxl
        ⟨⟨some 1, some 0⟩, ⟨some 1, some 0⟩, ⟨some 1, some 0⟩⟩ ⟨1, 0, 0⟩).1.map RPair.r1 =
      [fsum [fmul (some 1) (some 1), fmul (some 0) (some 1), fmul (some 0) (some 1)]] :=
  pkp_intracellular_zero_conc pkm0 ⟨none, none, []⟩ ⟨0, 0, 0⟩ crm_lin
    ⟨some 1, some 1, some 1⟩ ⟨⟨some 1, some 0⟩, ⟨some 1, some 0⟩, ⟨some 1, some 0⟩⟩ ⟨1, 0, 0⟩
    (fun r => fadd_some_zero r)

theorem conc_cost_congr (pkm : PKModel) (w C C' : List ℚ) (hlen : C.length = C'.length)
    (h : ∀ i : ℕ, w.getD i 1 ≠ 0 → C.getD i 0 = C'.getD i 0) :
    conc_cost pkm w C = conc_cost pkm w C' := by
  funext x
  exact wssq_congr w _ C C' hlen h

theorem enh_cost_congr (w E E' : List ℚ) (hct k R10t R10b : ℚ) (pkm : PKModel)
    (crm : CRModel) (wxm : WXModel) (sm : SigModel) (hlen : E.length = E'.length)
    (h : ∀ i : ℕ, w.getD i 1 ≠ 0 → E.getD i 0 = E'.getD i 0) :
    enh_cost w E hct k R10t R10b pkm crm wxm sm =
      enh_cost w E' hct k R10t R10b pkm crm wxm sm := by
  funext x
  exact wssq_congr w _ E E' hlen h

/-- C8 (amended): zero-weight samples never influence the fit.  Two runs
of conc_to_pkp (or enh_to_pkp) whose observed series differ only at
zero-weight positions produce identical results (parameters and fitted
series), because the cost term at a zero-weight sample does not depend on
the observed value there.  The fitted concentration series of conc_to_pkp
is NaN exactly at the zero-weight positions; the fitted enhancement series
of enh_to_pkp is NaN at every zero-weight position, but can additionally
be NaN at a nonzero-weight position when the forward model itself is
non-finite there (see the counterexample). -/
theorem fit_weight_exclusion (mini : (List ℚ → Flt) → List ℚ → MinResult)
    (pkm : PKModel) (p0 : Option (List PKPars)) (w : List ℚ)
    (C C' : List ℚ) (hlenC : C.length = C'.length)
    (hC : ∀ i : ℕ, w.getD i 1 ≠ 0 → C.getD i 0 = C'.getD i 0)
    (hct k R10t R10b : ℚ) (crm : CRModel) (wxm : WXModel) (sm : SigModel)
    (E E' : List ℚ) (hlenE : E.length = E'.length)
    (hE : ∀ i : ℕ, w.getD i 1 ≠ 0 → E.getD i 0 = E'.getD i 0) :
    conc_to_pkp mini C pkm p0 (some w) = conc_to_pkp mini C' pkm p0 (some w) ∧
    enh_to_pkp mini E hct k R10t R10b pkm crm wxm sm p0 (some w) =
      enh_to_pkp mini E' hct k R10t R10b pkm crm wxm sm p0 (some w) ∧
    (∀ pars fit, conc_to_pkp mini C pkm p0 (some w) = some (pars, fit) →
      ∀ i : ℕ, i < fit.length → (fit.getD i (some 0) = none ↔ w.getD i 1 = 0)) ∧
    (∀ pars fit, enh_to_pkp mini E hct k R10t R10b pkm crm wxm sm p0 (some w) = some (pars, fit) →
      ∀ i : ℕ, i < fit.length → w.getD i 1 = 0 → fit.getD i (some 0) = none) := by
  refine ⟨?_, ?_, ?_, ?_⟩
  · simp only [conc_to_pkp, Option.getD_some]
    rw [conc_cost_congr pkm w C C' hlenC hC]
  · simp only [enh_to_pkp, Option.getD_some]
    rw [enh_cost_congr w E E' hct k R10t R10b pkm crm wxm sm hlenE hE]
  · intro pars fit hsome i hi
    simp only [conc_to_pkp, Option.getD_some, Option.map_eq_some'] at hsome
    obtain ⟨r, _, heq⟩ := hsome
    injection heq with h₁ h₂
    rw [← h₂] at hi ⊢
    exact nanMask_getD_some w _ i hi
  · intro pars fit hsome i hi hw
    simp only [enh_to_pkp, Option.getD_some, Option.map_eq_some'] at hsome
    obtain ⟨r, _, heq⟩ := hsome
    injection heq with h₁ h₂
    rw [← h₂] at hi ⊢
    exact nanMask_getD_zero w _ i hi hw

/-- A relaxation model returning the concentration itself (a valid opaque
collaborator). -/
def crm_conc : CRModel := ⟨fun _ c => c, fun _ c => c⟩

/-- A water-exchange model keeping only the blood component with weight 1
(a valid opaque collaborator). -/
def wxm0 : WXModel := ⟨fun _ R1s => ([R1s.b], [some 1])⟩

/-- C8 counterexample: the fitted output does not contain NaN exactly at
the zero-weight positions.  With a pharmacokinetic model lacking the
plasma-volume key, the forward model divides by a zero blood volume
fraction, so the fitted enhancement returned by enh_to_pkp is NaN at a
position whose weight is 1. -/
theorem fit_weight_exclusion_cex :
    enh_to_pkp mini0 [0] 0 1 1 1 pkm0 crm_conc wxm0 sm_id none (some [1]) =
      some (⟨none, none, []⟩, [none]) ∧
    (1 : ℚ) ≠ 0 := by
  have hfwd : pkp_to_enh ⟨none, none, []⟩ 0 1 1 1 pkm0 crm_conc wxm0 sm_id = [none] := by
    have hv : volume_fractions ⟨none, none, []⟩ 0 = ⟨0, 1, 0⟩ := by norm_num [volume_fractions]
    have hRx : pkp_R10_extravasc 1 1 0 = some 1 := by norm_num [pkp_R10_extravasc, fdivQ]
    have hpre : compSignal sm_id 1
        (wxm0.R1_components ⟨0, 1, 0⟩ ⟨some 1, some 1, some 1⟩) = some 1 := by
      norm_num [compSignal, wxm0, sm_id, fsum, fadd, fmul]
    have hpost : compSignal sm_id 1
        (wxm0.R1_components ⟨0, 1, 0⟩ ⟨none, some 0, some 0⟩) = none := by
      norm_num [compSignal, wxm0, sm_id, fsum, fadd, fmul]
    simp only [pkp_to_enh]
    rw [hv]
    norm_num [hRx, hpre, hpost, pkp_conc_c, pkp_R1, pkm0, transpose3, zipWith3, crm_conc,
      fdivQ, fsub, fdiv, fmul]
  have htv : pkm0.typical_vals = [1] := rfl
  have hdict : ∀ x : List ℚ, pkm0.pkp_dict x = ⟨none, none, []⟩ := fun _ => rfl
  have harr : ∀ p : PKPars, pkm0.pkp_array p = [1] := fun _ => rfl
  have hcost : enh_cost [1] [0] 0 1 1 1 pkm0 crm_conc wxm0 sm_id [1] = none := by
    simp only [enh_cost]
    rw [hdict, hfwd]
    norm_num [wssq, zipWith3, fsum, fadd, fsub, fmul]
  have hmin : minimize_global mini0 (enh_cost [1] [0] 0 1 1 1 pkm0 crm_conc wxm0 sm_id) [[1]] =
      some ⟨[1], none, true⟩ := by
    norm_num [minimize_global, mini0, hcost, pymin, idxOf]
  have hstarts : ((none : Option (List PKPars)).getD [pkm0.pkp_dict pkm0.typical_vals]).map
      (fun pars => List.zipWith (fun a b => a / b) (pkm0.pkp_array pars) pkm0.typical_vals) =
      [[1]] := by
    norm_num [htv, harr]
  constructor
  · simp only [enh_to_pkp, Option.getD_some, hstarts, hmin, Option.map_some']
    simp only [hdict]
    rw [hfwd]
    norm_num [nanMask]
  · norm_num

theorem fit_weight_exclusion_witness :
    conc_to_pkp mini0 [1, 2] pkm0 none (some [1, 0]) =
      conc_to_pkp mini0 [1, 3] pkm0 none (some [1, 0]) :=
  (fit_weight_exclusion mini0 pkm0 none [1, 0] [1, 2] [1, 3] rfl
    (by
      intro i hi
      cases i with
      | zero => rfl
      | succ i₂ =>
        cases i₂ with
        | zero => exact absurd rfl hi
        | succ i₃ => rfl)
    0 1 1 1 crm_conc wxm0 sm_id [1, 2] [1, 3] rfl
    (by
      intro i hi
      cases i with
      | zero => rfl
      | succ i₂ =>
        cases i₂ with
        | zero => exact absurd rfl hi
        | succ i₃ => rfl)).1
